import Mathlib

/-!
Verification of the import_collector repository (src/import_collector/main.py,
with the earlier revision src/main.py).

Modelling conventions of this shallow embedding:
  * a Python `str` is a list of characters (`Str` below); `len` is `List.length`;
  * the external tokenizer (`count_tokens`, backed by tiktoken) is consumed as a
    pure function parameter `count_tokens : Str → Nat`, exactly the interface the
    program relies on;
  * the filesystem is a parameter `read_file : Str → Str` giving each path's
    (possibly comment-stripped) text, and `ast.parse`/`ast.walk` are abstracted
    as the list of import nodes they yield for a given file;
  * Python exceptions are modelled with `Except`;
  * mutable loops become folds whose state mirrors the mutated variables.
-/

/-- Python `str` modelled as its list of characters. -/
abbrev Str := List Char

/-- Python `code.split('\n')` as used in `code_split` (line 171). -/
def splitNl : Str → List Str
  | [] => [[]]
  | c :: rest =>
    if c = '\n' then [] :: splitNl rest
    else
      match splitNl rest with
      | [] => [[c]]
      | r :: rs => (c :: r) :: rs

/-- Joining with newlines; the inverse of `splitNl`. -/
def interNl : List Str → Str
  | [] => []
  | [r] => r
  | r :: s :: rs => r ++ '\n' :: interNl (s :: rs)

/-- The literal `split_last_message = '\n```\n'` of `code_split` (line 168):
the closing fence appended when a chunk is sealed at a split point. -/
def fenceM : Str := "\n```\n".data

/-- The literal `'\n```\n# The cord continued.\n'` prefixed to every new chunk
opened by `code_split` (line 177). -/
def contM : Str := "\n```\n# The cord continued.\n".data

/-- The newline string `'\n'`. -/
def nlS : Str := "\n".data

/-- The full text injected at one split point: the closing fence sealing the
previous chunk followed by the continuation prefix opening the next chunk. -/
def boundaryM : Str := fenceM ++ contM

/-- Loop body of `code_split` (lines 173-179).  The state is the pair
(sealed chunks, current chunk `chunked_code[-1]`). -/
def csStep (count_tokens : Str → Nat) (max_chara max_token : Nat)
    (st : List Str × Str) (row : Str) : List Str × Str :=
  let size_check_set := st.2 ++ row ++ fenceM
  if max_chara < size_check_set.length ∨ max_token < count_tokens size_check_set then
    (st.1 ++ [st.2 ++ fenceM], contM ++ row)
  else
    (st.1, st.2 ++ nlS ++ row)

/-- `code_split(code, max_chara, max_token)` (lines 148-181). -/
def code_split (count_tokens : Str → Nat) (code : Str)
    (max_chara max_token : Nat) : List Str :=
  if code.length ≤ max_chara ∧ count_tokens code ≤ max_token then [code]
  else
    let st := (splitNl code).foldl (csStep count_tokens max_chara max_token) ([], [])
    st.1 ++ [st.2]

/-- The per-file formatted block `f'\n### {relative_path}\n```\n{code}\n```\n'`
built in `ContentCreator.create_content` (line 336). -/
def file_block (relative_path code : Str) : Str :=
  "\n### ".data ++ relative_path ++ "\n```\n".data ++ code ++ "\n```\n".data

/-- Loop body of `ContentCreator.create_content` (lines 334-353) for one file's
formatted block, acting on the accumulated chunk list `chunked_contents`. -/
def ccStep (count_tokens : Str → Nat) (max_chara max_token : Nat)
    (chunks : List Str) (content : Str) : List Str :=
  if chunks = [] ∨ max_chara < (chunks.getLastD [] ++ content).length ∨
      max_token < count_tokens (chunks.getLastD [] ++ content) then
    if max_chara < content.length ∨ max_token < count_tokens content then
      chunks ++ code_split count_tokens content max_chara max_token
    else
      chunks ++ [content]
  else
    chunks.dropLast ++ [chunks.getLastD [] ++ content]

/-- `ContentCreator.create_content` (lines 325-354).  `read_file` abstracts
`read_file(relative_path, self.no_comment)`. -/
def create_content (count_tokens : Str → Nat) (read_file : Str → Str)
    (searched_result_paths : List Str) (max_chara max_token : Nat) : List Str :=
  searched_result_paths.foldl
    (fun chunks p =>
      ccStep count_tokens max_chara max_token chunks (file_block p (read_file p)))
    []

/-- Fueled worker for `replaceAll`; `fuel` bounds the number of characters
still to be scanned, so the recursion is structural. -/
def replaceAllAux (pat repl : Str) : Nat → Str → Str
  | 0, s => s
  | fuel + 1, s =>
    match s with
    | [] => []
    | c :: rest =>
      if pat ≠ [] ∧ pat.isPrefixOf (c :: rest) then
        repl ++ replaceAllAux pat repl fuel ((c :: rest).drop pat.length)
      else
        c :: replaceAllAux pat repl fuel rest

/-- Replacement of every occurrence of a (nonempty) pattern, scanning left to
right; used to express the marker-deletion readings of claim C8. -/
def replaceAll (pat repl s : Str) : Str := replaceAllAux pat repl s.length s

/-- Tokenizer reporting zero tokens for every text: a legitimate instantiation
of the external `count_tokens` capability (a pure deterministic function is all
the program assumes), under which the token budget never binds, so the
character-budget behaviour is isolated. -/
def tokZero : Str → Nat := fun _ => 0

/-- File body used in the chunker counterexamples: four short rows. -/
def cexCode : Str := "aa\nbb\ncc\ndd".data

/-- Filesystem for the chunker counterexamples. -/
def cexRead : Str → Str := fun _ => cexCode

/-- Path list for the chunker counterexamples: the single file `p`. -/
def cexPaths : List Str := [("p".data)]

/-- The formatted block of that single file. -/
def cexBlock : Str := file_block ("p".data) cexCode

/-- C10: `code_split` is the identity on inputs within budget: for every string
`code` with `len(code) <= max_chara` and `count_tokens(code) <= max_token`,
`code_split(code, max_chara, max_token)` returns exactly `[code]`, with no
continuation marker, closing fence, or other text injected. -/
theorem c10_code_split_identity (count_tokens : Str → Nat) (code : Str)
    (max_chara max_token : Nat) (h1 : code.length ≤ max_chara)
    (h2 : count_tokens code ≤ max_token) :
    code_split count_tokens code max_chara max_token = [code] := by
  unfold code_split
  rw [if_pos ⟨h1, h2⟩]

/-- Witness for C10 at a concrete within-budget input. -/
theorem c10_witness :
    code_split tokZero ("ab".data) 5 5 = [("ab".data)] :=
  c10_code_split_identity tokZero ("ab".data) 5 5 (by decide) (by decide)

/-- C1 counterexample: with character budget 12 (token budget never binding),
every single line of the one file's formatted block is within both budgets, yet
`create_content` produces a chunk exceeding the character budget: the
continuation prefix (27 characters) injected by `code_split` overflows every
continuation fragment.  This refutes the claim that only a fragment arising
from a single line that alone exceeds a budget may break the bounds. -/
theorem c1_counterexample :
    (∀ row ∈ splitNl cexBlock, row.length ≤ 12 ∧ tokZero row ≤ 1000000) ∧
    (∃ c ∈ create_content tokZero cexRead cexPaths 12 1000000,
      ¬(c.length ≤ 12 ∧ tokZero c ≤ 1000000)) := by decide

/-- Loop body of `DependenciesSearcher.search_dependencies` (lines 220-235) for
one path of the current level.  The state is the pair
(`searched_result_paths`, `search_paths[current_depth + 1]`).  A newly visited
path is inserted at the front (`searched_result_paths.insert(0, path)`), and
its dependencies are appended to the next level unless already searched or
outside the candidate set. -/
def processPath {α : Type} [DecidableEq α] (extract : α → List α)
    (cands : List α) (st : List α × List α) (path : α) : List α × List α :=
  if path ∈ st.1 ∨ path ∉ cands then st
  else
    (path :: st.1,
      st.2 ++ (extract path).filter (fun d => decide (d ∉ path :: st.1 ∧ d ∈ cands)))

/-- One iteration of the depth loop: fold the level through `processPath`,
starting with an empty next level. -/
def stepLevel {α : Type} [DecidableEq α] (extract : α → List α) (cands : List α)
    (level searched : List α) : List α × List α :=
  level.foldl (processPath extract cands) (searched, [])

/-- The depth loop of `search_dependencies` (lines 214-239): `fuel` is the
number of remaining iterations of `for i in range(0, self.depth + 1)`; the loop
stops early when the next level is empty. -/
def searchLoop {α : Type} [DecidableEq α] (extract : α → List α)
    (cands : List α) : Nat → List α → List α → List α
  | 0, _, searched => searched
  | fuel + 1, level, searched =>
    let st := stepLevel extract cands level searched
    if st.2 = [] then st.1 else searchLoop extract cands fuel st.2 st.1

/-- `DependenciesSearcher.search_dependencies` (lines 208-241), parameterized by
`extract` (the paths `extract_imports` returns for a visited path). -/
def search_dependencies {α : Type} [DecidableEq α] (extract : α → List α)
    (search_candidate_paths module_paths : List α) (depth : Nat) : List α :=
  searchLoop extract search_candidate_paths (depth + 1) module_paths []

/-- Unfolding equation for `searchLoop` at positive fuel. -/
theorem searchLoop_succ {α : Type} [DecidableEq α] (extract : α → List α)
    (cands : List α) (fuel : Nat) (level searched : List α) :
    searchLoop extract cands (fuel + 1) level searched =
      if (stepLevel extract cands level searched).2 = [] then
        (stepLevel extract cands level searched).1
      else
        searchLoop extract cands fuel (stepLevel extract cands level searched).2
          (stepLevel extract cands level searched).1 := rfl

/-- Invariant preservation for one `processPath` step: the searched list stays
duplicate-free and inside the candidate set. -/
theorem processPath_inv {α : Type} [DecidableEq α] (extract : α → List α)
    (cands : List α) (st : List α × List α) (path : α)
    (h1 : st.1.Nodup) (h2 : ∀ x ∈ st.1, x ∈ cands) :
    (processPath extract cands st path).1.Nodup ∧
      ∀ x ∈ (processPath extract cands st path).1, x ∈ cands := by
  unfold processPath
  split
  · exact ⟨h1, h2⟩
  · rename_i hcond
    push_neg at hcond
    refine ⟨List.nodup_cons.mpr ⟨hcond.1, h1⟩, ?_⟩
    intro x hx
    rcases List.mem_cons.mp hx with h | h
    · exact h ▸ hcond.2
    · exact h2 x h

/-- Invariant preservation for a whole level. -/
theorem stepLevel_inv {α : Type} [DecidableEq α] (extract : α → List α)
    (cands : List α) (level : List α) :
    ∀ st : List α × List α, st.1.Nodup → (∀ x ∈ st.1, x ∈ cands) →
      (level.foldl (processPath extract cands) st).1.Nodup ∧
        ∀ x ∈ (level.foldl (processPath extract cands) st).1, x ∈ cands := by
  induction level with
  | nil => intro st h1 h2; exact ⟨h1, h2⟩
  | cons p ps ih =>
    intro st h1 h2
    have h := processPath_inv extract cands st p h1 h2
    exact ih (processPath extract cands st p) h.1 h.2

/-- Invariant preservation along the depth loop. -/
theorem searchLoop_inv {α : Type} [DecidableEq α] (extract : α → List α)
    (cands : List α) (fuel : Nat) :
    ∀ level searched, searched.Nodup → (∀ x ∈ searched, x ∈ cands) →
      (searchLoop extract cands fuel level searched).Nodup ∧
        ∀ x ∈ searchLoop extract cands fuel level searched, x ∈ cands := by
  induction fuel with
  | zero => intro level searched h1 h2; exact ⟨h1, h2⟩
  | succ n ih =>
    intro level searched h1 h2
    rw [searchLoop_succ]
    have h := stepLevel_inv extract cands level (searched, []) h1 h2
    split
    · exact h
    · exact ih _ _ h.1 h.2

/-- C2: for every input (seeds, candidate set, depth limit), the list returned
by `DependenciesSearcher.search_dependencies` contains no duplicate paths, and
every path in it is a member of the candidate set `search_candidate_paths`. -/
theorem c2_nodup_and_candidates {α : Type} [DecidableEq α]
    (extract : α → List α) (cands seeds : List α) (depth : Nat) :
    (search_dependencies extract cands seeds depth).Nodup ∧
      ∀ p ∈ search_dependencies extract cands seeds depth, p ∈ cands :=
  searchLoop_inv extract cands (depth + 1) seeds [] List.nodup_nil
    (by intro x hx; exact absurd hx (List.not_mem_nil x))

/-- Witness for C2 at a concrete input. -/
theorem c2_witness :
    (search_dependencies (fun _ => [("x.py".data)]) [("x.py".data)]
        [("x.py".data)] 3).Nodup ∧
      ∀ p ∈ search_dependencies (fun _ => [("x.py".data)]) [("x.py".data)]
        [("x.py".data)] 3, p ∈ [("x.py".data)] :=
  c2_nodup_and_candidates (fun _ => [("x.py".data)]) [("x.py".data)]
    [("x.py".data)] 3

/-- Path `a.py` used in the concrete searcher runs. -/
def aPath : Str := "a.py".data

/-- Path `b.py` used in the concrete searcher runs. -/
def bPath : Str := "b.py".data

/-- Path `c.py` used in the concrete searcher runs. -/
def cPath : Str := "c.py".data

/-- Candidate set for the concrete searcher runs. -/
def abCands : List Str := [aPath, bPath]

/-- Import graph where `a.py` imports `b.py` and `b.py` imports nothing. -/
def abGraph : Str → List Str := fun p => if p = aPath then [bPath] else []

/-- C3 counterexample: the same import graph (seed `a.py` imports candidate
`b.py`) is run twice.  With seeds `[a.py]` the result is `[b.py, a.py]` (the
dependency before the dependent), but with seeds `[b.py, a.py]` the result is
`[a.py, b.py]` (the dependent before the dependency).  Hence no single ordering
convention — dependency-first or dependent-first — holds over all inputs, and
the relative order of `S = a.py` and `D = b.py` is not fixed. -/
theorem c3_counterexample :
    search_dependencies abGraph abCands [aPath] 5 = [bPath, aPath] ∧
      search_dependencies abGraph abCands [bPath, aPath] 5 = [aPath, bPath] := by
  decide

/-- Variant of `processPath` that appends the newly visited path at the end of
the visited list instead of inserting it at the front; used to state that the
code's result is the reverse of the first-visit order. -/
def processPathVisit {α : Type} [DecidableEq α] (extract : α → List α)
    (cands : List α) (st : List α × List α) (path : α) : List α × List α :=
  if path ∈ st.1 ∨ path ∉ cands then st
  else
    (st.1 ++ [path],
      st.2 ++ (extract path).filter (fun d => decide (d ∉ st.1 ++ [path] ∧ d ∈ cands)))

/-- One level of the visit-order variant. -/
def stepLevelVisit {α : Type} [DecidableEq α] (extract : α → List α)
    (cands : List α) (level searched : List α) : List α × List α :=
  level.foldl (processPathVisit extract cands) (searched, [])

/-- Depth loop of the visit-order variant. -/
def searchLoopVisit {α : Type} [DecidableEq α] (extract : α → List α)
    (cands : List α) : Nat → List α → List α → List α
  | 0, _, searched => searched
  | fuel + 1, level, searched =>
    let st := stepLevelVisit extract cands level searched
    if st.2 = [] then st.1 else searchLoopVisit extract cands fuel st.2 st.1

/-- The traversal with the visited paths recorded in first-visit order. -/
def search_dependencies_visit {α : Type} [DecidableEq α] (extract : α → List α)
    (search_candidate_paths module_paths : List α) (depth : Nat) : List α :=
  searchLoopVisit extract search_candidate_paths (depth + 1) module_paths []

/-- Unfolding equation for `searchLoopVisit` at positive fuel. -/
theorem searchLoopVisit_succ {α : Type} [DecidableEq α] (extract : α → List α)
    (cands : List α) (fuel : Nat) (level searched : List α) :
    searchLoopVisit extract cands (fuel + 1) level searched =
      if (stepLevelVisit extract cands level searched).2 = [] then
        (stepLevelVisit extract cands level searched).1
      else
        searchLoopVisit extract cands fuel
          (stepLevelVisit extract cands level searched).2
          (stepLevelVisit extract cands level searched).1 := rfl

/-- One step of the simulation between the two insertion conventions. -/
theorem processPath_visit_rel {α : Type} [DecidableEq α] (extract : α → List α)
    (cands : List α) (st1 st2 : List α × List α) (p : α)
    (h1 : st1.1 = st2.1.reverse) (h2 : st1.2 = st2.2) :
    (processPath extract cands st1 p).1 =
        (processPathVisit extract cands st2 p).1.reverse ∧
      (processPath extract cands st1 p).2 =
        (processPathVisit extract cands st2 p).2 := by
  unfold processPath processPathVisit
  have hmem : (p ∈ st1.1 ∨ p ∉ cands) ↔ (p ∈ st2.1 ∨ p ∉ cands) := by
    rw [h1, List.mem_reverse]
  by_cases hc : p ∈ st2.1 ∨ p ∉ cands
  · rw [if_pos (hmem.mpr hc), if_pos hc]
    exact ⟨h1, h2⟩
  · rw [if_neg (fun hx => hc (hmem.mp hx)), if_neg hc]
    constructor
    · show p :: st1.1 = (st2.1 ++ [p]).reverse
      rw [h1, List.reverse_append]
      rfl
    · show st1.2 ++ _ = st2.2 ++ _
      rw [h2]
      congr 1
      apply List.filter_congr
      intro d _
      apply decide_eq_decide.mpr
      rw [h1]
      simp [List.mem_reverse, or_comm]

/-- Level-wise simulation between the two insertion conventions. -/
theorem stepLevel_visit_rel {α : Type} [DecidableEq α] (extract : α → List α)
    (cands : List α) (level : List α) :
    ∀ st1 st2 : List α × List α, st1.1 = st2.1.reverse → st1.2 = st2.2 →
      (level.foldl (processPath extract cands) st1).1 =
          (level.foldl (processPathVisit extract cands) st2).1.reverse ∧
        (level.foldl (processPath extract cands) st1).2 =
          (level.foldl (processPathVisit extract cands) st2).2 := by
  induction level with
  | nil => intro st1 st2 h1 h2; exact ⟨h1, h2⟩
  | cons p ps ih =>
    intro st1 st2 h1 h2
    have h := processPath_visit_rel extract cands st1 st2 p h1 h2
    exact ih _ _ h.1 h.2

/-- Loop-wise simulation between the two insertion conventions. -/
theorem searchLoop_visit_rel {α : Type} [DecidableEq α] (extract : α → List α)
    (cands : List α) (fuel : Nat) :
    ∀ level s1 s2, s1 = s2.reverse →
      searchLoop extract cands fuel level s1 =
        (searchLoopVisit extract cands fuel level s2).reverse := by
  induction fuel with
  | zero => intro level s1 s2 h; exact h
  | succ n ih =>
    intro level s1 s2 h
    rw [searchLoop_succ, searchLoopVisit_succ]
    have hst : (stepLevel extract cands level s1).1 =
          (stepLevelVisit extract cands level s2).1.reverse ∧
        (stepLevel extract cands level s1).2 =
          (stepLevelVisit extract cands level s2).2 :=
      stepLevel_visit_rel extract cands level (s1, []) (s2, []) h rfl
    rw [hst.2]
    by_cases hempty : (stepLevelVisit extract cands level s2).2 = []
    · rw [if_pos hempty, if_pos hempty]
      exact hst.1
    · rw [if_neg hempty, if_neg hempty]
      exact ih _ _ _ hst.1

/-- C3 amended: no single dependency-first or dependent-first convention holds
invariantly (see `c3_counterexample`).  What does hold invariantly, for every
input, is that `search_dependencies` returns the visited files in exactly the
reverse of their first-visit order (each newly visited path is inserted at the
front of the result).  In particular a dependency `D` first discovered while
processing `S` is visited after `S` and therefore precedes `S` in the output,
while a `D` already visited as an earlier seed precedes `S` in visit order and
therefore follows it in the output. -/
theorem c3_amended_reverse_visit_order {α : Type} [DecidableEq α]
    (extract : α → List α) (cands seeds : List α) (depth : Nat) :
    search_dependencies extract cands seeds depth =
      (search_dependencies_visit extract cands seeds depth).reverse :=
  searchLoop_visit_rel extract cands (depth + 1) seeds [] [] rfl

/-- Import graph with the two-cycle: `a.py` imports `b.py`, `b.py` imports
`a.py`. -/
def cycGraph : Str → List Str :=
  fun p => if p = aPath then [bPath] else if p = bPath then [aPath] else []

/-- Evaluation of the cycle run: the loop stabilizes after two levels, for
every fuel `n + 2`. -/
theorem cycLoop_eval (n : Nat) :
    searchLoop cycGraph abCands (n + 2) [aPath] [] = [bPath, aPath] := by
  rw [searchLoop_succ]
  rw [show stepLevel cycGraph abCands [aPath] [] = ([aPath], [bPath]) from by decide]
  rw [if_neg (by decide)]
  rw [searchLoop_succ]
  rw [show stepLevel cycGraph abCands [bPath] [aPath] = ([bPath, aPath], []) from by
    decide]
  rfl

/-- C4: on the cyclic import graph where `a.py` imports `b.py` and
`b.py` imports `a.py` (both files candidates and reachable from the seed `a.py`
within any depth limit of at least 1), `search_dependencies` terminates — it is
a total function of fuel `depth + 1` — and each file of the cycle appears
exactly once in the result. -/
theorem c4_cycle_terminates_once (depth : Nat) (h : 1 ≤ depth) :
    (search_dependencies cycGraph abCands [aPath] depth).count aPath = 1 ∧
      (search_dependencies cycGraph abCands [aPath] depth).count bPath = 1 := by
  obtain ⟨n, rfl⟩ : ∃ n, depth = n + 1 := ⟨depth - 1, by omega⟩
  unfold search_dependencies
  rw [cycLoop_eval n]
  decide

/-- Witness for C4 at depth 7. -/
theorem c4_witness :
    (search_dependencies cycGraph abCands [aPath] 7).count aPath = 1 ∧
      (search_dependencies cycGraph abCands [aPath] 7).count bPath = 1 :=
  c4_cycle_terminates_once 7 (by decide)

/-- Loop body of `search_dependencies` when `extract_imports` may raise: the
path is first inserted into `searched_result_paths` (line 227), then
`extract_imports` is called (line 229); `ast.parse` (line 258) raises
`SyntaxError` on an unparseable file and nothing in the searcher catches it, so
the exception propagates and the partially built result list is lost. -/
def processPathE {α : Type} [DecidableEq α] (extract : α → Except Unit (List α))
    (cands : List α) (st : List α × List α) (path : α) :
    Except Unit (List α × List α) :=
  if path ∈ st.1 ∨ path ∉ cands then .ok st
  else
    match extract path with
    | .error e => .error e
    | .ok deps =>
      .ok (path :: st.1,
        st.2 ++ deps.filter (fun d => decide (d ∉ path :: st.1 ∧ d ∈ cands)))

/-- Depth loop of the exception-aware searcher. -/
def searchLoopE {α : Type} [DecidableEq α] (extract : α → Except Unit (List α))
    (cands : List α) : Nat → List α → List α → Except Unit (List α)
  | 0, _, searched => .ok searched
  | fuel + 1, level, searched =>
    match level.foldlM (processPathE extract cands) (searched, []) with
    | .error e => .error e
    | .ok st => if st.2 = [] then .ok st.1 else searchLoopE extract cands fuel st.2 st.1

/-- `search_dependencies` with the exception behaviour of `extract_imports`
made explicit: `.error ()` is an uncaught `SyntaxError` escaping the whole
call. -/
def search_dependenciesE {α : Type} [DecidableEq α]
    (extract : α → Except Unit (List α))
    (search_candidate_paths module_paths : List α) (depth : Nat) :
    Except Unit (List α) :=
  searchLoopE extract search_candidate_paths (depth + 1) module_paths []

/-- Candidate set `[a.py, b.py, c.py]` for the parse-failure run. -/
def abcCands : List Str := [aPath, bPath, cPath]

/-- Extraction outcome where `a.py` and `c.py` parse (no imports) but `b.py`
fails to parse (`ast.parse` raises `SyntaxError`). -/
def badParseGraph : Str → Except Unit (List Str) :=
  fun p => if p = bPath then .error () else .ok []

/-- C5 evaluation at the failing input: seeds `[a.py, b.py, c.py]` where `b.py`
does not parse.  The code visits `a.py`, then aborts the entire run with the
uncaught parse exception: no result list is produced at all, so `b.py` is not
recorded as visited and the remaining frontier (`c.py`) is never traversed —
contradicting the claim that the walk continues with `b.py` marked visited and
contributing zero edges. -/
theorem c5_parse_error_aborts :
    search_dependenciesE badParseGraph abcCands [aPath, bPath, cPath] 5 =
      .error () := by rfl

/-- One import node found by `ast.walk` in a parsed file: `ast.Import`
(`import m1, m2, ...`) carries the dotted names of the imported modules;
`ast.ImportFrom` (`from mod import n1, n2, ...`) carries the optional module
(`None` for `from . import x`), the imported names, and the relative level
(number of leading dots, 0 for an absolute from-import). -/
inductive PyImport where
  | imp (names : List Str)
  | impFrom (module : Option Str) (names : List Str) (level : Nat)
deriving DecidableEq

/-- Test used by the list comprehension at line 261:
`isinstance(node, ast.ImportFrom)`. -/
def PyImport.isFrom : PyImport → Bool
  | .imp _ => false
  | .impFrom _ _ _ => true

/-- Test for `isinstance(node, ast.Import)`. -/
def PyImport.isImp : PyImport → Bool
  | .imp _ => true
  | .impFrom _ _ _ => false

/-- Split a path at `/` separators. -/
def splitSlash : Str → List Str
  | [] => [[]]
  | c :: rest =>
    if c = '/' then [] :: splitSlash rest
    else
      match splitSlash rest with
      | [] => [[c]]
      | r :: rs => (c :: r) :: rs

/-- Join path components with `/`. -/
def joinSlash : List Str → Str
  | [] => []
  | [r] => r
  | r :: s :: rs => r ++ '/' :: joinSlash (s :: rs)

/-- `os.path.dirname` for slash-normalized paths: drops the last component. -/
def dirnameP (p : Str) : Str := joinSlash (splitSlash p).dropLast

/-- Remove the longest common leading run of two component lists. -/
def dropCommon : List Str → List Str → List Str × List Str
  | p :: ps, b :: bs =>
    if p = b then dropCommon ps bs else (p :: ps, b :: bs)
  | ps, bs => (ps, bs)

/-- `os.path.relpath(p, base)` for normalized slash-separated paths: strip the
common prefix, ascend with `..` for each remaining base component, then append
the remaining components of `p`. -/
def relpathP (p base : Str) : Str :=
  let rest := dropCommon (splitSlash p) (splitSlash base)
  let parts := rest.2.map (fun _ => "..".data) ++ rest.1
  if parts = [] then ".".data else joinSlash parts

/-- `os.path.join(root, rel)` for a nonempty root with no trailing slash and a
relative second component. -/
def joinP (root rel : Str) : Str := root ++ '/' :: rel

/-- Python `s.replace(old, new)` for single-character old and new. -/
def replaceChar (old new : Char) (s : Str) : Str :=
  s.map (fun c => if c = old then new else c)

/-- `DependenciesSearcher.absolute_path` (lines 301-314): joins the root with
the relative path, returning the empty string when the file does not exist
(`path_exists` abstracts `os.path.exists`). -/
def absolute_path (path_exists : Str → Bool) (root_path relative_path : Str) :
    Str :=
  let a := joinP root_path relative_path
  if path_exists a then a else []

/-- Body of the `for node in imports` loop of
`DependenciesSearcher.extract_imports` (lines 266-292).  The state is the pair
(`package_relative_name`, `result_module_names`); `package_relative_name` is
`none` while the Python local of that name is still unassigned — it is only
assigned inside the `node.level > 0` branch, yet read at line 289 for every
package expansion, so a package expansion before any relative import raises
`NameError` (modelled as `.error ()`).  `is_package` abstracts
`importlib`-based `is_package`, `modules_in_package` abstracts
`get_modules_in_package` (`pkgutil.iter_modules`).  Note the collected
`import_class_and_func_names` (lines 270-272) are never consulted. -/
def icNode (is_package : Str → Bool) (modules_in_package : Str → List Str)
    (root_path abs_path : Str) (st : Option Str × List Str) (node : PyImport) :
    Except Unit (Option Str × List Str) :=
  match node with
  | .imp _ => .ok st
  | .impFrom module _names level =>
    let module_name := module.getD []
    let st2 :=
      if 0 < level then
        let base_dir := Nat.iterate dirnameP level abs_path
        let prn := replaceChar '/' '.' (relpathP base_dir root_path)
        (some prn, prn ++ '.' :: module_name)
      else
        (st.1, module_name)
    if is_package st2.2 then
      match st2.1 with
      | none => .error ()
      | some prn =>
        .ok (st2.1,
          st.2 ++ (modules_in_package st2.2).map (fun m => prn ++ '.' :: m))
    else
      .ok (st2.1, st.2 ++ [st2.2])

/-- `DependenciesSearcher.extract_imports` (lines 243-299): keeps only the
`ast.ImportFrom` nodes of the walked syntax tree (line 261), resolves each to
dotted module names, then converts every name to a relative path
`name.replace('.', '/') + '.py'` (lines 295-298). -/
def extract_imports (is_package : Str → Bool)
    (modules_in_package : Str → List Str) (path_exists : Str → Bool)
    (root_path relative_path : Str) (nodes : List PyImport) :
    Except Unit (List Str) :=
  let abs_path := absolute_path path_exists root_path relative_path
  match (nodes.filter PyImport.isFrom).foldlM
      (icNode is_package modules_in_package root_path abs_path) (none, []) with
  | .error e => .error e
  | .ok st =>
    .ok (st.2.map (fun module_name =>
      replaceChar '.' '/' module_name ++ ".py".data))

/-- `get_module_if_contains` (lines 83-102): the helper that filters a
package's submodules to those defining at least one requested name.
`module_members` abstracts `inspect.getmembers` on the imported submodule.
This function is defined in the source but never called anywhere. -/
def get_module_if_contains (modules_in_package : Str → List Str)
    (module_members : Str → List Str) (package_name : Str)
    (target_class_or_func_names : List Str) : List Str :=
  (modules_in_package package_name).foldl
    (fun acc module_name =>
      let full := package_name ++ '.' :: module_name
      acc ++
        ((module_members full).filter
          (fun n => decide (n ∈ target_class_or_func_names))).map (fun _ => full))
    []

/-- Package oracle for the C6 run: nothing is a package. -/
def noPkg : Str → Bool := fun _ => false

/-- Submodule oracle for the C6 run: no package contents. -/
def noPkgMods : Str → List Str := fun _ => []

/-- Existence oracle: every path exists. -/
def allExist : Str → Bool := fun _ => true

/-- C6 counterexample: a file whose parsed tree contains exactly the
plain import statement `import m` yields no dependency at all — the list
comprehension at line 261 keeps only `ast.ImportFrom` nodes, so no reference
for `m` is emitted and the walker can never discover `m.py` through it.  This
refutes the claim that the extractor emits a `level=0` reference for each
module named by a plain import. -/
theorem c6_counterexample :
    extract_imports noPkg noPkgMods allExist ("root".data) ("a.py".data)
      [PyImport.imp [("m".data)]] = .ok [] := by rfl

/-- C6 amended: the extractor of the authoritative revision recognizes only
from-import statements; every plain `import m` statement is dropped entirely,
so a file whose imports are all of the plain form contributes no dependencies
whatsoever.  (The earlier revision src/main.py does inspect `ast.Import` nodes,
but even there only the last module named in the statement is emitted.) -/
theorem c6_amended_plain_imports_ignored (is_package : Str → Bool)
    (modules_in_package : Str → List Str) (path_exists : Str → Bool)
    (root_path relative_path : Str) (nodes : List PyImport)
    (h : ∀ n ∈ nodes, n.isImp = true) :
    extract_imports is_package modules_in_package path_exists root_path
      relative_path nodes = .ok [] := by
  unfold extract_imports
  have hf : nodes.filter PyImport.isFrom = [] := by
    rw [List.filter_eq_nil_iff]
    intro a ha
    have ha2 := h a ha
    cases a with
    | imp names => simp [PyImport.isFrom]
    | impFrom m names level => simp [PyImport.isImp] at ha2
  rw [hf]
  rfl

/-- Witness for the amended C6 at a concrete all-plain-imports file. -/
theorem c6_amended_witness :
    extract_imports noPkg noPkgMods allExist ("root".data) ("a.py".data)
      [PyImport.imp [("m".data)], PyImport.imp [("q".data), ("r".data)]] =
      .ok [] :=
  c6_amended_plain_imports_ignored noPkg noPkgMods allExist ("root".data)
    ("a.py".data)
    [PyImport.imp [("m".data)], PyImport.imp [("q".data), ("r".data)]]
    (by decide)

/-- Package oracle for the C7 run: exactly `sub.pkg` is a package. -/
def subPkgIsPkg : Str → Bool := fun s => decide (s = ("sub.pkg".data))

/-- Submodule oracle for the C7 run: `sub.pkg` holds submodules `m1`, `m2`. -/
def subPkgMods : Str → List Str :=
  fun s => if s = ("sub.pkg".data) then [("m1".data), ("m2".data)] else []

/-- Member oracle for the C7 run: submodule `m1` defines `A`, submodule `m2`
defines only `B`. -/
def subPkgMembers : Str → List Str :=
  fun s =>
    if s = ("sub.pkg.m1".data) then [("A".data)]
    else if s = ("sub.pkg.m2".data) then [("B".data)] else []

/-- C7 evaluation at the failing input: `sub/a.py` contains
`from .pkg import A`, the package `sub.pkg` has submodules `m1` (defining `A`)
and `m2` (defining only `B`).  The code expands the package with
`get_modules_in_package` (line 287), emitting a path for EVERY submodule —
including `m2`, which defines no requested name (and even drops the `pkg`
segment from the emitted paths).  The helper `get_module_if_contains`
(lines 83-102), which implements exactly the claimed symbol-filtered
expansion and here returns only `sub.pkg.m1`, is never called anywhere in the
source. -/
theorem c7_package_expansion_ignores_symbols :
    extract_imports subPkgIsPkg subPkgMods allExist ("root".data)
        ("sub/a.py".data)
        [PyImport.impFrom (some ("pkg".data)) [("A".data)] 1] =
      .ok [("sub/m1.py".data), ("sub/m2.py".data)] ∧
    get_module_if_contains subPkgMods subPkgMembers ("sub.pkg".data)
        [("A".data)] =
      [("sub.pkg.m1".data)] := by
  constructor
  · rfl
  · decide

/-- Configuration errors `main_model` can raise (lines 374-394); the wrong-type
`TypeError` checks are enforced statically by the types of the embedding. -/
inductive MainErr where
  | depthNegative
  | maxCharaNonpositive
  | maxTokenNonpositive
deriving DecidableEq

/-- `exclude_paths` (lines 129-145): `list.remove` deletes the first
occurrence of each exclude that is present. -/
def exclude_paths (all_py_paths excludes : List Str) : List Str :=
  excludes.foldl (fun l e => l.erase e) all_py_paths

/-- `main` (lines 357-410), modelled as `main_model`: validates the configuration, then enumerates
candidates (`get_all_py_paths`, abstracted as `all_py_paths`), excludes,
searches dependencies and chunks the content.  `depth`, `max_chara` and
`max_token` are `int`s as in Python. -/
def main_model (count_tokens : Str → Nat) (read_file : Str → Str)
    (extract : Str → List Str) (all_py_paths module_paths : List Str)
    (depth max_chara max_token : Int) (excludes : List Str) :
    Except MainErr (List Str) :=
  if depth < 0 then .error .depthNegative
  else if max_chara < 1 then .error .maxCharaNonpositive
  else if max_token < 1 then .error .maxTokenNonpositive
  else
    .ok (create_content count_tokens read_file
      (search_dependencies extract (exclude_paths all_py_paths excludes)
        module_paths depth.toNat)
      max_chara.toNat max_token.toNat)

/-- C9: `main` rejects invalid configuration before any traversal begins — a
negative depth or a character or token budget below 1 yields an error with no
candidate enumeration, dependency walk, or chunk production (structurally, the
error branches precede the pipeline) — and this is the only error class
preventing the run from starting: with a valid configuration `main` proceeds
through exclusion, traversal and chunking to a result.  (The `TypeError`
checks for wrongly typed arguments are outside a typed embedding: the types of
`main_model` enforce them statically.) -/
theorem c9_config_validation (count_tokens : Str → Nat) (read_file : Str → Str)
    (extract : Str → List Str) (all_py_paths module_paths : List Str)
    (depth max_chara max_token : Int) (excludes : List Str) :
    ((depth < 0 ∨ max_chara < 1 ∨ max_token < 1) →
        ∃ e, main_model count_tokens read_file extract all_py_paths module_paths
          depth max_chara max_token excludes = .error e) ∧
      (0 ≤ depth → 1 ≤ max_chara → 1 ≤ max_token →
        main_model count_tokens read_file extract all_py_paths module_paths depth
            max_chara max_token excludes =
          .ok (create_content count_tokens read_file
            (search_dependencies extract (exclude_paths all_py_paths excludes)
              module_paths depth.toNat)
            max_chara.toNat max_token.toNat)) := by
  constructor
  · intro h
    unfold main_model
    by_cases h1 : depth < 0
    · exact ⟨.depthNegative, by rw [if_pos h1]⟩
    · rw [if_neg h1]
      by_cases h2 : max_chara < 1
      · exact ⟨.maxCharaNonpositive, by rw [if_pos h2]⟩
      · rw [if_neg h2]
        have h3 : max_token < 1 := by
          rcases h with h | h | h
          · exact absurd h h1
          · exact absurd h h2
          · exact h
        rw [if_pos h3]
        exact ⟨.maxTokenNonpositive, rfl⟩
  · intro h1 h2 h3
    unfold main_model
    rw [if_neg (by omega), if_neg (by omega), if_neg (by omega)]

/-- Witness for C9: a negative depth is rejected; a valid configuration runs
through to a chunk list. -/
theorem c9_witness :
    (∃ e, main_model tokZero cexRead abGraph abCands [aPath] (-1) 10 10 [] =
      .error e) ∧
    ∃ out, main_model tokZero cexRead abGraph abCands [aPath] 2 10 10 [] = .ok out :=
  ⟨(c9_config_validation tokZero cexRead abGraph abCands [aPath] (-1) 10 10
      []).1 (Or.inl (by decide)),
    ⟨_, (c9_config_validation tokZero cexRead abGraph abCands [aPath] 2 10 10
      []).2 (by decide) (by decide) (by decide)⟩⟩

/-- `splitNl` never returns the empty list (Python `split` always yields at
least one piece). -/
theorem splitNl_ne_nil (s : Str) : splitNl s ≠ [] := by
  cases s with
  | nil => simp [splitNl]
  | cons c rest =>
    unfold splitNl
    split
    · simp
    · split <;> simp

/-- Rejoining the pieces of `splitNl` with newlines restores the string. -/
theorem interNl_splitNl (s : Str) : interNl (splitNl s) = s := by
  induction s with
  | nil => rfl
  | cons c rest ih =>
    unfold splitNl
    by_cases hc : c = '\n'
    · rw [if_pos hc]
      obtain ⟨r, rs, hr⟩ : ∃ r rs, splitNl rest = r :: rs := by
        cases hsp : splitNl rest with
        | nil => exact absurd hsp (splitNl_ne_nil rest)
        | cons r rs => exact ⟨r, rs, rfl⟩
      rw [hr]
      show [] ++ '\n' :: interNl (r :: rs) = c :: rest
      rw [← hr, ih, hc]
      rfl
    · rw [if_neg hc]
      cases hsp : splitNl rest with
      | nil => exact absurd hsp (splitNl_ne_nil rest)
      | cons r rs =>
        cases rs with
        | nil =>
          have hrest : r = rest := by
            have := ih
            rw [hsp] at this
            exact this
          show interNl [c :: r] = c :: rest
          rw [show interNl [c :: r] = c :: r from rfl, hrest]
        | cons s ss =>
          show (c :: r) ++ '\n' :: interNl (s :: ss) = c :: rest
          have hrest : r ++ '\n' :: interNl (s :: ss) = rest := by
            have := ih
            rw [hsp] at this
            exact this
          rw [List.cons_append, hrest]

/-- Rows rejoined with one explicit separator in front of each row. -/
def withSeps (seps rows : List Str) : Str :=
  List.flatten (List.zipWith (fun a b => a ++ b) seps rows)

/-- Rejoining with a newline in front of every row gives the newline-joined
string preceded by one extra newline. -/
theorem withSeps_const_nl (rows : List Str) (h : rows ≠ []) :
    withSeps (rows.map (fun _ => nlS)) rows = nlS ++ interNl rows := by
  induction rows with
  | nil => exact absurd rfl h
  | cons r rs ih =>
    cases rs with
    | nil => simp [withSeps, interNl, nlS]
    | cons s ss =>
      have hih := ih (by simp)
      show (nlS ++ r) ++ withSeps ((s :: ss).map (fun _ => nlS)) (s :: ss) =
        nlS ++ (r ++ '\n' :: interNl (s :: ss))
      rw [hih]
      simp [nlS, List.append_assoc]

/-- A split form of block `b`: the rows of `b` rejoined where every separator
is either the plain newline it replaces or the injected split-point text
`boundaryM` (closing fence plus continuation prefix), together with the fact
that putting a newline in front of every row instead reproduces `b` preceded
by one extra newline. -/
def splitForm (b c : Str) : Prop :=
  ∃ seps : List Str,
    (∀ x ∈ seps, x = nlS ∨ x = boundaryM) ∧
    seps.length = (splitNl b).length ∧
    c = withSeps seps (splitNl b) ∧
    withSeps ((splitNl b).map (fun _ => nlS)) (splitNl b) = nlS ++ b

/-- Each row processed by the `code_split` loop enters the accumulated text
prefixed either by a plain newline (append branch) or by the injected
split-point text (seal-and-open branch): the concatenation of all chunks held
in the loop state is the initial text followed by the rows with those
separators. -/
theorem csFold_seps (count_tokens : Str → Nat) (mc mt : Nat) :
    ∀ (rows : List Str) (done : List Str) (cur : Str),
      ∃ seps : List Str,
        (∀ x ∈ seps, x = nlS ∨ x = boundaryM) ∧
        seps.length = rows.length ∧
        List.flatten ((rows.foldl (csStep count_tokens mc mt) (done, cur)).1) ++
            (rows.foldl (csStep count_tokens mc mt) (done, cur)).2 =
          List.flatten done ++ cur ++ withSeps seps rows := by
  intro rows
  induction rows with
  | nil =>
    intro done cur
    exact ⟨[], by simp, rfl, by simp [withSeps]⟩
  | cons r rs ih =>
    intro done cur
    rw [List.foldl_cons]
    by_cases hc : mc < (cur ++ r ++ fenceM).length ∨
        mt < count_tokens (cur ++ r ++ fenceM)
    · have hstep : csStep count_tokens mc mt (done, cur) r =
          (done ++ [cur ++ fenceM], contM ++ r) := by
        simp only [csStep]
        rw [if_pos hc]
      rw [hstep]
      obtain ⟨seps, hmem, hlen, hflat⟩ := ih (done ++ [cur ++ fenceM]) (contM ++ r)
      refine ⟨boundaryM :: seps, ?_, by simp [hlen], ?_⟩
      · intro x hx
        rcases List.mem_cons.mp hx with rfl | hx
        · exact Or.inr rfl
        · exact hmem x hx
      · rw [hflat]
        show List.flatten (done ++ [cur ++ fenceM]) ++ (contM ++ r) ++
            withSeps seps rs =
          List.flatten done ++ cur ++ ((boundaryM ++ r) ++ withSeps seps rs)
        simp [boundaryM, List.append_assoc]
    · have hstep : csStep count_tokens mc mt (done, cur) r =
          (done, cur ++ nlS ++ r) := by
        simp only [csStep]
        rw [if_neg hc]
      rw [hstep]
      obtain ⟨seps, hmem, hlen, hflat⟩ := ih done (cur ++ nlS ++ r)
      refine ⟨nlS :: seps, ?_, by simp [hlen], ?_⟩
      · intro x hx
        rcases List.mem_cons.mp hx with rfl | hx
        · exact Or.inl rfl
        · exact hmem x hx
      · rw [hflat]
        show List.flatten done ++ (cur ++ nlS ++ r) ++ withSeps seps rs =
          List.flatten done ++ cur ++ ((nlS ++ r) ++ withSeps seps rs)
        simp [List.append_assoc]

/-- When `code_split` actually splits, the concatenation of its chunks is a
split form of the input. -/
theorem code_split_splitForm (count_tokens : Str → Nat) (code : Str)
    (mc mt : Nat) (h : ¬(code.length ≤ mc ∧ count_tokens code ≤ mt)) :
    splitForm code (List.flatten (code_split count_tokens code mc mt)) := by
  obtain ⟨seps, hmem, hlen, hflat⟩ :=
    csFold_seps count_tokens mc mt (splitNl code) [] []
  refine ⟨seps, hmem, hlen, ?_, ?_⟩
  · unfold code_split
    rw [if_neg h]
    show List.flatten
        (((splitNl code).foldl (csStep count_tokens mc mt) ([], [])).1 ++
          [((splitNl code).foldl (csStep count_tokens mc mt) ([], [])).2]) =
      withSeps seps (splitNl code)
    rw [List.flatten_append]
    simpa using hflat
  · rw [withSeps_const_nl (splitNl code) (splitNl_ne_nil code),
      interNl_splitNl]

/-- Appending text to the last chunk of a nonempty chunk list appends it to
the concatenation. -/
theorem flatten_dropLast_append (chunks : List Str) (x : Str)
    (h : chunks ≠ []) :
    List.flatten (chunks.dropLast ++ [chunks.getLastD [] ++ x]) =
      List.flatten chunks ++ x := by
  rcases List.eq_nil_or_concat chunks with rfl | ⟨L, b, rfl⟩
  · exact absurd rfl h
  · rw [List.concat_eq_append, List.dropLast_concat, List.getLastD_concat]
    simp [List.append_assoc]

/-- Each file processed by the `create_content` loop contributes its formatted
block — verbatim, or as a split form when the block alone overflows a budget —
to the concatenation of the accumulated chunk list. -/
theorem ccFold_flatten (count_tokens : Str → Nat) (read_file : Str → Str)
    (mc mt : Nat) :
    ∀ (paths : List Str) (chunks : List Str),
      ∃ contribs : List Str,
        List.flatten (paths.foldl
            (fun ch p => ccStep count_tokens mc mt ch (file_block p (read_file p)))
            chunks) =
          List.flatten chunks ++ List.flatten contribs ∧
        List.Forall₂ (fun c b => c = b ∨ splitForm b c) contribs
          (paths.map (fun p => file_block p (read_file p))) := by
  intro paths
  induction paths with
  | nil => intro chunks; exact ⟨[], by simp, List.Forall₂.nil⟩
  | cons p ps ih =>
    intro chunks
    rw [List.foldl_cons, List.map_cons]
    have hstep : ∃ c0,
        List.flatten (ccStep count_tokens mc mt chunks
            (file_block p (read_file p))) =
          List.flatten chunks ++ c0 ∧
        (c0 = file_block p (read_file p) ∨
          splitForm (file_block p (read_file p)) c0) := by
      unfold ccStep
      by_cases h1 : chunks = [] ∨
          mc < (chunks.getLastD [] ++ file_block p (read_file p)).length ∨
          mt < count_tokens (chunks.getLastD [] ++ file_block p (read_file p))
      · rw [if_pos h1]
        by_cases h2 : mc < (file_block p (read_file p)).length ∨
            mt < count_tokens (file_block p (read_file p))
        · rw [if_pos h2]
          refine ⟨List.flatten
              (code_split count_tokens (file_block p (read_file p)) mc mt),
            by simp, Or.inr ?_⟩
          apply code_split_splitForm
          intro hcon
          rcases h2 with h2 | h2
          · exact absurd hcon.1 (by omega)
          · exact absurd hcon.2 (by omega)
        · rw [if_neg h2]
          exact ⟨file_block p (read_file p), by simp, Or.inl rfl⟩
      · rw [if_neg h1]
        push_neg at h1
        exact ⟨file_block p (read_file p),
          flatten_dropLast_append chunks (file_block p (read_file p)) h1.1,
          Or.inl rfl⟩
    obtain ⟨c0, hflat0, hrel0⟩ := hstep
    obtain ⟨contribs, hflat, hrel⟩ :=
      ih (ccStep count_tokens mc mt chunks (file_block p (read_file p)))
    refine ⟨c0 :: contribs, ?_, List.Forall₂.cons hrel0 hrel⟩
    rw [hflat, hflat0]
    simp [List.append_assoc]

/-- C8 amended: concatenating all chunks of `create_content` reproduces the
formatted blocks of the resolved files in order, except that each block that
went through `code_split` appears in split form: its rows rejoined with each
separator either the newline it replaces or the injected split-point text
(closing fence + continuation marker line), and replacing every separator by a
newline yields that block preceded by ONE EXTRA newline — the loop prefixes a
newline to every row, including the first, so exact reassembly (the claim as
stated) fails by one leading newline per split block. -/
theorem c8_amended_reassembly (count_tokens : Str → Nat)
    (read_file : Str → Str) (paths : List Str) (mc mt : Nat) :
    ∃ contribs : List Str,
      List.flatten (create_content count_tokens read_file paths mc mt) =
        List.flatten contribs ∧
      List.Forall₂ (fun c b => c = b ∨ splitForm b c) contribs
        (paths.map (fun p => file_block p (read_file p))) := by
  obtain ⟨contribs, hflat, hrel⟩ :=
    ccFold_flatten count_tokens read_file mc mt paths []
  refine ⟨contribs, ?_, hrel⟩
  unfold create_content
  simpa using hflat

set_option maxRecDepth 16384 in
/-- C8 counterexample: for the single small-lined file of `cexPaths` under
character budget 12, deleting the injected split markers from the
concatenation of the chunks — whether each split-point insertion
(closing fence + continuation marker line) is replaced by the newline it
displaced, or deleted outright — does NOT reproduce the formatted block: the
split loop injects one extra leading newline before the block's first row. -/
theorem c8_counterexample :
    replaceAll boundaryM nlS
        (List.flatten (create_content tokZero cexRead cexPaths 12 1000000)) ≠
      List.flatten (cexPaths.map (fun p => file_block p (cexRead p))) ∧
    replaceAll boundaryM []
        (List.flatten (create_content tokZero cexRead cexPaths 12 1000000)) ≠
      List.flatten (cexPaths.map (fun p => file_block p (cexRead p))) := by
  decide

/-- A chunk is acceptable when it is within both budgets, or is one of the
fragments `code_split` produced for some formatted block that alone overflowed
a budget. -/
def chunkOk (count_tokens : Str → Nat) (mc mt : Nat) (blocks : List Str)
    (c : Str) : Prop :=
  (c.length ≤ mc ∧ count_tokens c ≤ mt) ∨
    ∃ b ∈ blocks, (mc < b.length ∨ mt < count_tokens b) ∧
      c ∈ code_split count_tokens b mc mt

/-- One `create_content` step preserves chunk acceptability. -/
theorem ccStep_chunkOk (count_tokens : Str → Nat) (mc mt : Nat)
    (blocks : List Str) (chunks : List Str) (b : Str) (hb : b ∈ blocks)
    (hch : ∀ c ∈ chunks, chunkOk count_tokens mc mt blocks c) :
    ∀ c ∈ ccStep count_tokens mc mt chunks b,
      chunkOk count_tokens mc mt blocks c := by
  intro c hc
  unfold ccStep at hc
  by_cases h1 : chunks = [] ∨ mc < (chunks.getLastD [] ++ b).length ∨
      mt < count_tokens (chunks.getLastD [] ++ b)
  · rw [if_pos h1] at hc
    by_cases h2 : mc < b.length ∨ mt < count_tokens b
    · rw [if_pos h2] at hc
      rcases List.mem_append.mp hc with h | h
      · exact hch c h
      · exact Or.inr ⟨b, hb, h2, h⟩
    · rw [if_neg h2] at hc
      rcases List.mem_append.mp hc with h | h
      · exact hch c h
      · push_neg at h2
        rw [List.mem_singleton.mp h]
        exact Or.inl h2
  · rw [if_neg h1] at hc
    push_neg at h1
    rcases List.mem_append.mp hc with h | h
    · exact hch c ((List.dropLast_sublist chunks).subset h)
    · rw [List.mem_singleton.mp h]
      exact Or.inl ⟨h1.2.1, h1.2.2⟩

/-- The `create_content` loop only ever produces acceptable chunks. -/
theorem ccFold_chunkOk (count_tokens : Str → Nat) (read_file : Str → Str)
    (mc mt : Nat) :
    ∀ (paths : List Str) (blocks : List Str) (chunks : List Str),
      (∀ p ∈ paths, file_block p (read_file p) ∈ blocks) →
      (∀ c ∈ chunks, chunkOk count_tokens mc mt blocks c) →
      ∀ c ∈ paths.foldl
          (fun ch p => ccStep count_tokens mc mt ch (file_block p (read_file p)))
          chunks,
        chunkOk count_tokens mc mt blocks c := by
  intro paths
  induction paths with
  | nil => intro blocks chunks _ hch; exact hch
  | cons p ps ih =>
    intro blocks chunks hp hch
    rw [List.foldl_cons]
    exact ih blocks _ (fun q hq => hp q (List.mem_cons_of_mem p hq))
      (ccStep_chunkOk count_tokens mc mt blocks chunks _
        (hp p (List.mem_cons_self p ps)) hch)

/-- C1 amended: every chunk produced by `create_content` either satisfies both
budgets (`len(chunk) <= max_chara` and `count_tokens(chunk) <= max_token`), or
is verbatim one of the fragments `code_split` returned for a formatted block
that alone exceeded a budget.  Such fragments can exceed the budgets even when
no single line does (see `c1_counterexample`): the continuation prefix and the
newline not counted by the size check push them past the limits, so the
exception cannot be narrowed to single oversized lines. -/
theorem c1_amended_chunk_bounds (count_tokens : Str → Nat)
    (read_file : Str → Str) (paths : List Str) (mc mt : Nat) :
    ∀ c ∈ create_content count_tokens read_file paths mc mt,
      chunkOk count_tokens mc mt
        (paths.map (fun p => file_block p (read_file p))) c := by
  unfold create_content
  exact ccFold_chunkOk count_tokens read_file mc mt paths
    (paths.map (fun p => file_block p (read_file p))) []
    (fun p hp => List.mem_map_of_mem _ hp)
    (fun c hc => absurd hc (List.not_mem_nil c))

/-- Witness for the amended C1: with generous budgets the single produced
chunk is acceptable. -/
theorem c1_amended_witness :
    chunkOk tokZero 100 100
      ([("p".data)].map (fun p => file_block p (cexRead p)))
      (file_block ("p".data) cexCode) :=
  c1_amended_chunk_bounds tokZero cexRead [("p".data)] 100 100
    (file_block ("p".data) cexCode) (by decide)
